import Mathlib

/-!
Verification of the paper-trader backend core: the order execution engine
(`execution.OrderService.SubmitAndExecute`), the position / portfolio / ledger
repositories (SQL in `internal/repository/postgres`), the redis price store
(`redis.PriceRepo`), the websocket fan-out hub (`gateway.Hub`) and the
market-data ingestion client (`ingestion.AlpacaClient`).

Monetary quantities are embedded as `ℚ`: the persisted columns are
`NUMERIC(19,4)` (exact decimal arithmetic) and the claims under study are
algebraic identities about the committed state.
-/

namespace PaperTrader

/-! ## Domain model (internal/domain/types.go)

`OrderSide`, `OrderType`, `OrderStatus` and `EntryType` are string enums in
the source (`type OrderSide string` etc.), so they are embedded as `String`.
Timestamps and UUIDs are irrelevant to the claims; order ids are `Nat`. -/

structure Position where
  quantity : ℚ
  avgCost  : ℚ
  deriving Repr, DecidableEq

structure Order where
  id           : Nat
  symbol       : String
  side         : String
  orderType    : String
  quantity     : ℚ
  limitPrice   : Option ℚ
  fillPrice    : Option ℚ
  filledQty    : ℚ
  status       : String
  rejectReason : Option String
  deriving Repr, DecidableEq

structure LedgerEntry where
  orderId      : Option Nat
  entryType    : String
  amount       : ℚ
  balanceAfter : ℚ
  deriving Repr, DecidableEq

structure PriceTick where
  symbol    : String
  price     : ℚ
  size      : ℚ
  timestamp : ℚ
  deriving Repr, DecidableEq

/-- The transactional state of one portfolio: its cash balance, its position
rows (keyed by symbol, unique per `(portfolio_id, symbol)`), its order rows
and its append-only ledger.  `SubmitAndExecute` serializes all executions
against one portfolio via `SELECT ... FOR UPDATE`, so a single-portfolio
state is the unit of the transaction. -/
structure PortfolioState where
  cashBalance : ℚ
  positions   : List (String × Position)
  orders      : List Order
  ledger      : List LedgerEntry
  deriving Repr, DecidableEq

/-! ## Position repository (internal/repository/postgres/position_repo.go)

The `positions` table has `UNIQUE (portfolio_id, symbol)`, so the rows of one
portfolio form an association list keyed by symbol. -/

/-- `PositionRepo.GetBySymbolTx`: `SELECT * FROM positions WHERE ... AND
symbol = $2`, returning `nil` (here `none`) when no row matches. -/
def positionsGet : List (String × Position) → String → Option Position
  | [], _ => none
  | (s, pos) :: rest, sym => if s = sym then some pos else positionsGet rest sym

/-- `PositionRepo.UpsertTx`: `INSERT ... ON CONFLICT (portfolio_id, symbol)
DO UPDATE SET quantity = positions.quantity + EXCLUDED.quantity, avg_cost =
(positions.quantity * positions.avg_cost + EXCLUDED.quantity *
EXCLUDED.avg_cost) / (positions.quantity + EXCLUDED.quantity)`. -/
def positionsUpsert : List (String × Position) → String → ℚ → ℚ → List (String × Position)
  | [], sym, qty, price => [(sym, { quantity := qty, avgCost := price })]
  | (s, pos) :: rest, sym, qty, price =>
    if s = sym then
      (s, { quantity := pos.quantity + qty,
            avgCost := (pos.quantity * pos.avgCost + qty * price) / (pos.quantity + qty) }) :: rest
    else (s, pos) :: positionsUpsert rest sym qty price

/-- `PositionRepo.UpdateQtyTx`: `UPDATE positions SET quantity = $1 WHERE
... AND symbol = $3` (the `avg_cost` column is not touched). -/
def positionsUpdateQty : List (String × Position) → String → ℚ → List (String × Position)
  | [], _, _ => []
  | (s, pos) :: rest, sym, newQty =>
    if s = sym then (s, { pos with quantity := newQty }) :: positionsUpdateQty rest sym newQty
    else (s, pos) :: positionsUpdateQty rest sym newQty

/-- `PositionRepo.DeleteTx`: `DELETE FROM positions WHERE ... AND symbol = $2`. -/
def positionsDelete : List (String × Position) → String → List (String × Position)
  | [], _ => []
  | (s, pos) :: rest, sym =>
    if s = sym then positionsDelete rest sym else (s, pos) :: positionsDelete rest sym

/-! ## Execution engine (execution package) -/

/-- `execution.validateOrderRequest`: quantity must be positive, symbol
non-empty, side one of buy/sell, type one of market/limit/stop/stop_limit,
checked in that order. -/
def validateOrderRequest (req : Order) : Except String Unit :=
  if req.quantity ≤ 0 then .error "quantity must be greater than zero"
  else if req.symbol = "" then .error "symbol is required"
  else if req.side = "buy" ∨ req.side = "sell" then
    if req.orderType = "market" ∨ req.orderType = "limit" ∨
        req.orderType = "stop" ∨ req.orderType = "stop_limit" then .ok ()
    else .error ("invalid order type: " ++ req.orderType)
  else .error ("invalid order side: " ++ req.side)

/-- `OrderRepo.CreateTx`: `INSERT INTO orders (id, portfolio_id, symbol,
side, order_type, quantity, limit_price, status) VALUES (...)`.  The column
list omits `reject_reason`, `fill_price`, `filled_qty` and `filled_at`, so
whatever the in-memory struct holds, the committed row takes the schema
defaults for those columns: `reject_reason` NULL, `fill_price` NULL,
`filled_qty` 0. -/
def createOrderRow (o : Order) : Order :=
  { id := o.id, symbol := o.symbol, side := o.side, orderType := o.orderType,
    quantity := o.quantity, limitPrice := o.limitPrice,
    fillPrice := none, filledQty := 0, status := o.status, rejectReason := none }

/-- The rejected-and-committed pattern of `SubmitAndExecute`: set
`Status = rejected` and a reason on the in-memory struct, `CreateTx` the
order, commit the transaction, and return the struct (reason included) as a
non-error result.  No cash, position or ledger row is touched.  Note that
the committed row goes through `createOrderRow`, whose INSERT has no
`reject_reason` column — the persisted reason is NULL even though the
returned struct carries it, and `UpdateRejectedTx` (the one method that
writes `reject_reason`) is never called. -/
def commitRejected (st : PortfolioState) (req : Order) (reason : String) :
    PortfolioState × Order :=
  let rejected := { req with status := "rejected", rejectReason := some reason }
  ({ st with orders := st.orders ++ [createOrderRow rejected] }, rejected)

/-- `PortfolioRepo.UpdateCashBalanceTx`: `UPDATE portfolios SET cash_balance
= $1 WHERE id = $2`.  The schema (init.sql) declares `cash_balance
NUMERIC(19,4) NOT NULL ... CHECK (cash_balance >= 0)`, so the UPDATE fails
— and the surrounding transaction rolls back — when the new balance is
negative. -/
def updateCashBalance (st : PortfolioState) (newBalance : ℚ) :
    Except String PortfolioState :=
  if newBalance < 0 then .error "check constraint violated: cash_balance >= 0"
  else .ok { st with cashBalance := newBalance }

/-- `OrderRepo.UpdateStatusTx` as called from the fill path: set status,
fill price and filled quantity on the order row with the given id. -/
def updateOrderStatus (st : PortfolioState) (id : Nat) (status : String)
    (fillPrice filledQty : ℚ) : PortfolioState :=
  { st with orders := st.orders.map fun o =>
      if o.id = id then
        { o with status := status, fillPrice := some fillPrice, filledQty := filledQty }
      else o }

/-- Steps 6–7 of the execution algorithm, shared by both sides: update the
portfolio cash balance to `newBalance`, set the order row to
status=filled with fill price and filled quantity, and append one ledger
entry whose amount is `-cost` for a buy and `+cost` for a sell and whose
`balanceAfter` is the new balance — all in the same transaction. -/
def finishFill (st2 : PortfolioState) (req : Order) (fillPrice cost newBalance : ℚ)
    (entryType : String) : Except String (PortfolioState × Order) :=
  match updateCashBalance st2 newBalance with
  | .error e => .error e
  | .ok st3 =>
    let st4 := updateOrderStatus st3 req.id "filled" fillPrice req.quantity
    let entry : LedgerEntry :=
      { orderId := some req.id, entryType := entryType,
        amount := if req.side = "sell" then cost else -cost,
        balanceAfter := newBalance }
    let st5 := { st4 with ledger := st4.ledger ++ [entry] }
    .ok (st5, { req with status := "filled", fillPrice := some fillPrice,
                         filledQty := req.quantity })

/-- The non-rejected tail of `SubmitAndExecute`: create the order row
(status=pending), apply the cash/position mutation for the side, then
`finishFill`.  On the sell side the position is re-fetched with
`GetBySymbolTx` and dereferenced without a nil check; that path is
unreachable because the insufficient-position check above passed in the same
transaction (in Go a nil dereference would panic and abort the transaction,
modelled as an error). -/
def execFill (st : PortfolioState) (req : Order) (fillPrice cost : ℚ) :
    Except String (PortfolioState × Order) :=
  let st1 : PortfolioState := { st with orders := st.orders ++ [createOrderRow req] }
  if req.side = "buy" then
    finishFill
      { st1 with positions := positionsUpsert st1.positions req.symbol req.quantity fillPrice }
      req fillPrice cost (st.cashBalance - cost) "trade_buy"
  else
    match positionsGet st1.positions req.symbol with
    | none => .error "runtime panic: nil position dereference"
    | some pos =>
      let newQty := pos.quantity - req.quantity
      finishFill
        (if newQty = 0 then { st1 with positions := positionsDelete st1.positions req.symbol }
         else { st1 with positions := positionsUpdateQty st1.positions req.symbol newQty })
        req fillPrice cost (st.cashBalance + cost) "trade_sell"

/-- `OrderService.SubmitAndExecute`: validate the request, look up the last
price from the price store (absent price is a hard error before the
transaction opens), compute `cost = fillPrice * quantity`, then under the
portfolio row lock either commit a rejected order (insufficient funds for a
buy; missing or too-small position for a sell) or execute the fill.  An
`.error` result means the transaction — if one was opened — rolled back, so
the caller-visible state is unchanged. -/
def SubmitAndExecute (getLastPrice : String → Option PriceTick)
    (st : PortfolioState) (req0 : Order) : Except String (PortfolioState × Order) :=
  match validateOrderRequest req0 with
  | .error e => .error e
  | .ok _ =>
    match getLastPrice req0.symbol with
    | none => .error ("no price data available for symbol: " ++ req0.symbol)
    | some tick =>
      let fillPrice := tick.price
      let cost := fillPrice * req0.quantity
      let req := { req0 with status := "pending" }
      if req.side = "buy" then
        if st.cashBalance < cost then .ok (commitRejected st req "insufficient funds")
        else execFill st req fillPrice cost
      else
        match positionsGet st.positions req.symbol with
        | none => .ok (commitRejected st req "insufficient position")
        | some pos =>
          if pos.quantity < req.quantity then
            .ok (commitRejected st req "insufficient position")
          else execFill st req fillPrice cost

/-- The portfolio state visible after `SubmitAndExecute` returns: the new
state on a committed result, the unchanged input state when the call errored
(validation / no-quote failures happen before the transaction opens, and any
later error rolls the transaction back). -/
def execResultState (getLastPrice : String → Option PriceTick)
    (st : PortfolioState) (req : Order) : PortfolioState :=
  match SubmitAndExecute getLastPrice st req with
  | .ok (st', _) => st'
  | .error _ => st

/-! ## Lemmas about the position repository operations -/

theorem positionsGet_upsert (ps : List (String × Position)) (sym : String) (qty price : ℚ) :
    positionsGet (positionsUpsert ps sym qty price) sym =
      some (match positionsGet ps sym with
            | none => { quantity := qty, avgCost := price }
            | some pos =>
              { quantity := pos.quantity + qty,
                avgCost := (pos.quantity * pos.avgCost + qty * price) / (pos.quantity + qty) }) := by
  induction ps with
  | nil => simp [positionsUpsert, positionsGet]
  | cons head rest ih =>
    obtain ⟨s, pos⟩ := head
    by_cases h : s = sym
    · simp [positionsUpsert, positionsGet, h]
    · simp [positionsUpsert, positionsGet, h, ih]

theorem positionsGet_delete (ps : List (String × Position)) (sym : String) :
    positionsGet (positionsDelete ps sym) sym = none := by
  induction ps with
  | nil => simp [positionsDelete, positionsGet]
  | cons head rest ih =>
    obtain ⟨s, pos⟩ := head
    by_cases h : s = sym
    · simp [positionsDelete, positionsGet, h, ih]
    · simp [positionsDelete, positionsGet, h, ih]

theorem positionsGet_updateQty (ps : List (String × Position)) (sym : String) (newQty : ℚ) :
    positionsGet (positionsUpdateQty ps sym newQty) sym =
      (positionsGet ps sym).map fun pos => { pos with quantity := newQty } := by
  induction ps with
  | nil => simp [positionsUpdateQty, positionsGet]
  | cons head rest ih =>
    obtain ⟨s, pos⟩ := head
    by_cases h : s = sym
    · simp [positionsUpdateQty, positionsGet, h]
    · simp [positionsUpdateQty, positionsGet, h, ih]

theorem validateOrderRequest_ok (req : Order)
    (hqty : 0 < req.quantity) (hsym : req.symbol ≠ "")
    (hside : req.side = "buy" ∨ req.side = "sell")
    (hty : req.orderType = "market" ∨ req.orderType = "limit" ∨
           req.orderType = "stop" ∨ req.orderType = "stop_limit") :
    validateOrderRequest req = .ok () := by
  unfold validateOrderRequest
  rw [if_neg (not_le.mpr hqty), if_neg hsym, if_pos hside, if_pos hty]

/-! ## Claim C1: buy orders with cost within the cash balance -/

/-- Claim C1: for every (well-formed) buy order whose cost
`fillPrice * quantity` is at most the portfolio cash balance,
`SubmitAndExecute` commits: cash balance decreases by the cost, the position
for the symbol becomes old quantity + order quantity with the weighted
average cost (created with `quantity = orderQty, avgCost = fillPrice` when
absent), and exactly one ledger entry is appended with `amount = -cost` and
`balanceAfter` the new cash balance. -/
theorem submitAndExecute_buy_fill
    (g : String → Option PriceTick) (st : PortfolioState) (req : Order) (tick : PriceTick)
    (hside : req.side = "buy")
    (hqty : 0 < req.quantity)
    (hsym : req.symbol ≠ "")
    (hty : req.orderType = "market" ∨ req.orderType = "limit" ∨
           req.orderType = "stop" ∨ req.orderType = "stop_limit")
    (hprice : g req.symbol = some tick)
    (hcost : tick.price * req.quantity ≤ st.cashBalance) :
    ∃ st' o, SubmitAndExecute g st req = .ok (st', o) ∧
      st'.cashBalance = st.cashBalance - tick.price * req.quantity ∧
      positionsGet st'.positions req.symbol =
        some (match positionsGet st.positions req.symbol with
              | none => { quantity := req.quantity, avgCost := tick.price }
              | some pos =>
                { quantity := pos.quantity + req.quantity,
                  avgCost := (pos.quantity * pos.avgCost + req.quantity * tick.price) /
                             (pos.quantity + req.quantity) }) ∧
      st'.ledger = st.ledger ++
        [{ orderId := some req.id, entryType := "trade_buy",
           amount := -(tick.price * req.quantity),
           balanceAfter := st.cashBalance - tick.price * req.quantity }] := by
  have hval := validateOrderRequest_ok req hqty hsym (Or.inl hside) hty
  have hc : ¬ st.cashBalance < tick.price * req.quantity := not_lt.mpr hcost
  have hc2 : ¬ st.cashBalance - tick.price * req.quantity < 0 :=
    not_lt.mpr (sub_nonneg.mpr hcost)
  have hbs : ¬ ("buy" : String) = "sell" := by decide
  simp only [SubmitAndExecute, hval, hprice, hside, execFill, finishFill, updateCashBalance,
    updateOrderStatus, hc, hc2, hbs, eq_self_iff_true, if_true, if_false]
  refine ⟨_, _, rfl, ?_, ?_, ?_⟩
  · rfl
  · rw [positionsGet_upsert]
  · rfl

/-- Witness for C1: a concrete buy of 2 shares at price 100 against a cash
balance of 1000. -/
theorem submitAndExecute_buy_fill_witness :
    ∃ st' o,
      SubmitAndExecute (fun s => if s = "AAPL" then some ⟨"AAPL", 100, 1, 0⟩ else none)
        ⟨1000, [], [], []⟩ ⟨1, "AAPL", "buy", "market", 2, none, none, 0, "", none⟩ =
          .ok (st', o) ∧
      st'.cashBalance = 1000 - 100 * 2 ∧
      positionsGet st'.positions "AAPL" =
        some (match positionsGet ([] : List (String × Position)) "AAPL" with
              | none => { quantity := 2, avgCost := 100 }
              | some pos =>
                { quantity := pos.quantity + 2,
                  avgCost := (pos.quantity * pos.avgCost + 2 * 100) / (pos.quantity + 2) }) ∧
      st'.ledger = [] ++
        [{ orderId := some 1, entryType := "trade_buy",
           amount := -(100 * 2), balanceAfter := 1000 - 100 * 2 }] :=
  submitAndExecute_buy_fill
    (fun s => if s = "AAPL" then some ⟨"AAPL", 100, 1, 0⟩ else none)
    ⟨1000, [], [], []⟩ ⟨1, "AAPL", "buy", "market", 2, none, none, 0, "", none⟩
    ⟨"AAPL", 100, 1, 0⟩ rfl (by norm_num) (by decide)
    (Or.inl rfl) (by simp) (by norm_num)

/-! ## Claim C2: sell orders covered by the held position -/

/-- Claim C2: for every (well-formed) sell order whose quantity is at most
the held position quantity, `SubmitAndExecute` commits: cash balance grows
by `cost = fillPrice * quantity`, the position quantity drops by the order
quantity with `avgCost` untouched — the row being deleted outright when the
remaining quantity is exactly 0 — and the appended ledger entry carries
`amount = +cost` and `balanceAfter` the new cash balance. -/
theorem submitAndExecute_sell_fill
    (g : String → Option PriceTick) (st : PortfolioState) (req : Order)
    (tick : PriceTick) (pos : Position)
    (hside : req.side = "sell")
    (hqty : 0 < req.quantity)
    (hsym : req.symbol ≠ "")
    (hty : req.orderType = "market" ∨ req.orderType = "limit" ∨
           req.orderType = "stop" ∨ req.orderType = "stop_limit")
    (hprice : g req.symbol = some tick)
    (hpos : positionsGet st.positions req.symbol = some pos)
    (hheld : req.quantity ≤ pos.quantity)
    (hcash : 0 ≤ st.cashBalance)
    (hp : 0 ≤ tick.price) :
    ∃ st' o, SubmitAndExecute g st req = .ok (st', o) ∧
      st'.cashBalance = st.cashBalance + tick.price * req.quantity ∧
      positionsGet st'.positions req.symbol =
        (if pos.quantity - req.quantity = 0 then none
         else some { pos with quantity := pos.quantity - req.quantity }) ∧
      st'.ledger = st.ledger ++
        [{ orderId := some req.id, entryType := "trade_sell",
           amount := tick.price * req.quantity,
           balanceAfter := st.cashBalance + tick.price * req.quantity }] := by
  have hval := validateOrderRequest_ok req hqty hsym (Or.inr hside) hty
  have hnb : ¬ pos.quantity < req.quantity := not_lt.mpr hheld
  have hc2 : ¬ st.cashBalance + tick.price * req.quantity < 0 :=
    not_lt.mpr (add_nonneg hcash (mul_nonneg hp hqty.le))
  have hsb : ¬ ("sell" : String) = "buy" := by decide
  by_cases hz : pos.quantity - req.quantity = 0
  · simp only [SubmitAndExecute, hval, hprice, hside, hsb, execFill, finishFill, updateCashBalance,
      updateOrderStatus, hpos, hnb, hc2, hz, eq_self_iff_true, if_true, if_false]
    refine ⟨_, _, rfl, ?_, ?_, ?_⟩
    · rfl
    · rw [positionsGet_delete]
    · rfl
  · simp only [SubmitAndExecute, hval, hprice, hside, hsb, execFill, finishFill, updateCashBalance,
      updateOrderStatus, hpos, hnb, hc2, hz, eq_self_iff_true, if_true, if_false]
    refine ⟨_, _, rfl, ?_, ?_, ?_⟩
    · rfl
    · rw [positionsGet_updateQty, hpos]
      rfl
    · rfl

/-- Witness for C2: a concrete sell of 2 of 5 held shares at price 50. -/
theorem submitAndExecute_sell_fill_witness :
    ∃ st' o,
      SubmitAndExecute (fun s => if s = "TSLA" then some ⟨"TSLA", 50, 1, 0⟩ else none)
        ⟨100, [("TSLA", ⟨5, 40⟩)], [], []⟩
        ⟨2, "TSLA", "sell", "market", 2, none, none, 0, "", none⟩ = .ok (st', o) ∧
      st'.cashBalance = 100 + 50 * 2 ∧
      positionsGet st'.positions "TSLA" =
        (if (5 : ℚ) - 2 = 0 then none
         else some { quantity := (5 : ℚ) - 2, avgCost := 40 }) ∧
      st'.ledger = [] ++
        [{ orderId := some 2, entryType := "trade_sell",
           amount := 50 * 2, balanceAfter := 100 + 50 * 2 }] :=
  submitAndExecute_sell_fill
    (fun s => if s = "TSLA" then some ⟨"TSLA", 50, 1, 0⟩ else none)
    ⟨100, [("TSLA", ⟨5, 40⟩)], [], []⟩
    ⟨2, "TSLA", "sell", "market", 2, none, none, 0, "", none⟩
    ⟨"TSLA", 50, 1, 0⟩ ⟨5, 40⟩ rfl (by norm_num) (by decide)
    (Or.inl rfl) (by simp) (by simp [positionsGet]) (by norm_num)
    (by norm_num) (by norm_num)

/-! ## Claim C3: business rejections commit a rejected order and change
nothing else -/

/-- Claim C3 (code evaluation at the failing input): a buy of 100 shares at
price 100 against a cash balance of 50 is rejected as claimed — cash,
positions and ledger are untouched, exactly one new order row is committed
with status `rejected`, and the rejected order is returned as a non-error
result carrying reason "insufficient funds" — but the *committed row's*
`reject_reason` is NULL (`none`): `OrderRepo.CreateTx`'s INSERT column list
has no `reject_reason`, and `UpdateRejectedTx`, the only method writing that
column, is never called.  The claim (and the spec's auditable-rejection
guarantee) require a non-empty reason on the committed row, which the code
does not produce. -/
theorem submitAndExecute_rejected_row_reason_null :
    SubmitAndExecute (fun s => if s = "NVDA" then some ⟨"NVDA", 100, 1, 0⟩ else none)
        ⟨50, [], [], []⟩ ⟨3, "NVDA", "buy", "market", 100, none, none, 0, "", none⟩ =
      .ok (⟨50, [],
            [⟨3, "NVDA", "buy", "market", 100, none, none, 0, "rejected", none⟩],
            []⟩,
           ⟨3, "NVDA", "buy", "market", 100, none, none, 0, "rejected",
            some "insufficient funds"⟩) := by
  have hval : validateOrderRequest
      ⟨3, "NVDA", "buy", "market", 100, none, none, 0, "", none⟩ = .ok () :=
    validateOrderRequest_ok _ (by norm_num) (by decide) (Or.inl rfl) (Or.inl rfl)
  have hlt : (50 : ℚ) < 100 * 100 := by norm_num
  simp [SubmitAndExecute, hval, hlt, commitRejected, createOrderRow]

/-! ## Claim C4: the cash balance never goes negative -/

theorem finishFill_cash_nonneg (st2 : PortfolioState) (req : Order)
    (fillPrice cost newBalance : ℚ) (entryType : String)
    (st' : PortfolioState) (o : Order)
    (h : finishFill st2 req fillPrice cost newBalance entryType = .ok (st', o)) :
    0 ≤ st'.cashBalance := by
  unfold finishFill updateCashBalance at h
  by_cases hnn : newBalance < 0
  · rw [if_pos hnn] at h
    exact absurd h (by simp)
  · rw [if_neg hnn] at h
    simp only [Except.ok.injEq, Prod.mk.injEq] at h
    obtain ⟨h1, _⟩ := h
    rw [← h1]
    simpa [updateOrderStatus] using not_lt.mp hnn

theorem execFill_cash_nonneg (st : PortfolioState) (req : Order)
    (fillPrice cost : ℚ) (st' : PortfolioState) (o : Order)
    (h : execFill st req fillPrice cost = .ok (st', o)) : 0 ≤ st'.cashBalance := by
  unfold execFill at h
  dsimp only at h
  split at h
  · exact finishFill_cash_nonneg _ _ _ _ _ _ _ _ h
  · split at h
    · exact absurd h (by simp)
    · exact finishFill_cash_nonneg _ _ _ _ _ _ _ _ h

theorem commitRejected_fst_cash (st : PortfolioState) (req : Order) (reason : String) :
    (commitRejected st req reason).1.cashBalance = st.cashBalance := rfl

theorem submitAndExecute_ok_cash (g : String → Option PriceTick)
    (st : PortfolioState) (req : Order) (st' : PortfolioState) (o : Order)
    (h : SubmitAndExecute g st req = .ok (st', o)) (h0 : 0 ≤ st.cashBalance) :
    0 ≤ st'.cashBalance := by
  unfold SubmitAndExecute at h
  split at h
  · exact absurd h (by simp)
  · split at h
    · exact absurd h (by simp)
    · dsimp only at h
      split at h
      · split at h
        · simp only [Except.ok.injEq, commitRejected, Prod.mk.injEq] at h
          obtain ⟨h1, _⟩ := h
          rw [← h1]
          exact h0
        · exact execFill_cash_nonneg _ _ _ _ _ _ h
      · split at h
        · simp only [Except.ok.injEq, commitRejected, Prod.mk.injEq] at h
          obtain ⟨h1, _⟩ := h
          rw [← h1]
          exact h0
        · split at h
          · simp only [Except.ok.injEq, commitRejected, Prod.mk.injEq] at h
            obtain ⟨h1, _⟩ := h
            rw [← h1]
            exact h0
          · exact execFill_cash_nonneg _ _ _ _ _ _ h

/-- Claim C4: starting from a portfolio with non-negative cash balance,
every call to `SubmitAndExecute` — whether it fills, rejects, or errors —
leaves the visible cash balance non-negative: a buy is only applied when its
cost fits in the balance, a sell adds a non-negative cost (and the schema
CHECK rolls the transaction back otherwise), and rejections and errors leave
the balance untouched. -/
theorem submitAndExecute_cash_invariant (g : String → Option PriceTick)
    (st : PortfolioState) (req : Order) (h0 : 0 ≤ st.cashBalance) :
    0 ≤ (execResultState g st req).cashBalance := by
  unfold execResultState
  cases hr : SubmitAndExecute g st req with
  | error e => exact h0
  | ok p =>
    obtain ⟨st', o⟩ := p
    exact submitAndExecute_ok_cash g st req st' o hr h0

/-- Witness for C4: a sell into an empty portfolio with zero cash (a
rejected order) leaves the balance non-negative. -/
theorem submitAndExecute_cash_invariant_witness :
    0 ≤ (execResultState (fun s => if s = "SPY" then some ⟨"SPY", 10, 1, 0⟩ else none)
          ⟨0, [], [], []⟩ ⟨4, "SPY", "sell", "market", 1, none, none, 0, "", none⟩).cashBalance :=
  submitAndExecute_cash_invariant
    (fun s => if s = "SPY" then some ⟨"SPY", 10, 1, 0⟩ else none)
    ⟨0, [], [], []⟩ ⟨4, "SPY", "sell", "market", 1, none, none, 0, "", none⟩
    (by norm_num)

/-! ## Claim C5: validation and no-quote failures have no side effects -/

/-- A malformed request in the sense of `validateOrderRequest`: quantity not
positive, empty symbol, side outside buy/sell, or type outside the four
order types. -/
def malformedOrder (req : Order) : Prop :=
  req.quantity ≤ 0 ∨ req.symbol = "" ∨
  (req.side ≠ "buy" ∧ req.side ≠ "sell") ∨
  (req.orderType ≠ "market" ∧ req.orderType ≠ "limit" ∧
   req.orderType ≠ "stop" ∧ req.orderType ≠ "stop_limit")

theorem validateOrderRequest_error (req : Order) (h : malformedOrder req) :
    ∃ e, validateOrderRequest req = .error e := by
  unfold malformedOrder at h
  unfold validateOrderRequest
  split_ifs with h1 h2 h3 h4
  · exact ⟨_, rfl⟩
  · exact ⟨_, rfl⟩
  · exfalso
    rcases h with h | h | h | h
    · exact h1 h
    · exact h2 h
    · rcases h3 with hb | hs
      · exact h.1 hb
      · exact h.2 hs
    · rcases h4 with ht | ht | ht | ht
      · exact h.1 ht
      · exact h.2.1 ht
      · exact h.2.2.1 ht
      · exact h.2.2.2 ht
  · exact ⟨_, rfl⟩
  · exact ⟨_, rfl⟩

/-- Claim C5: for a malformed request, or a well-formed request whose symbol
has no current price in the price store, `SubmitAndExecute` returns an error
before opening a transaction, and the caller-visible portfolio state (cash,
positions, orders, ledger) is exactly the input state. -/
theorem submitAndExecute_no_side_effects (g : String → Option PriceTick)
    (st : PortfolioState) (req : Order)
    (h : malformedOrder req ∨ g req.symbol = none) :
    (∃ e, SubmitAndExecute g st req = .error e) ∧ execResultState g st req = st := by
  have herr : ∃ e, SubmitAndExecute g st req = .error e := by
    rcases h with h | h
    · obtain ⟨e, he⟩ := validateOrderRequest_error req h
      exact ⟨e, by simp [SubmitAndExecute, he]⟩
    · cases hv : validateOrderRequest req with
      | error e => exact ⟨e, by simp [SubmitAndExecute, hv]⟩
      | ok u =>
        exact ⟨"no price data available for symbol: " ++ req.symbol,
          by cases u; simp [SubmitAndExecute, hv, h]⟩
  obtain ⟨e, he⟩ := herr
  exact ⟨⟨e, he⟩, by simp [execResultState, he]⟩

/-- Witness for C5: a zero-quantity request errors out and leaves the state
untouched. -/
theorem submitAndExecute_no_side_effects_witness :
    (∃ e, SubmitAndExecute (fun _ => none)
        ⟨500, [], [], []⟩ ⟨5, "AAPL", "buy", "market", 0, none, none, 0, "", none⟩ =
          .error e) ∧
    execResultState (fun _ => none)
        ⟨500, [], [], []⟩ ⟨5, "AAPL", "buy", "market", 0, none, none, 0, "", none⟩ =
      ⟨500, [], [], []⟩ :=
  submitAndExecute_no_side_effects (fun _ => none)
    ⟨500, [], [], []⟩ ⟨5, "AAPL", "buy", "market", 0, none, none, 0, "", none⟩
    (Or.inl (Or.inl (by norm_num)))

/-! ## Price store (internal/repository/redis/price_repo.go)

The redis keyspace is modelled as an association list from key to the stored
tick and its absolute expiry instant; the pub/sub side is the list of
`(channel, payload)` pairs published so far.  JSON marshalling round-trips a
tick exactly, so payloads are ticks.  A `SET key value EX 60` stores the
value with expiry `now + 60`; a `GET` of a key at or past its expiry behaves
exactly like a missing key (`redis.Nil`). -/

structure RedisState where
  store     : List (String × PriceTick × ℚ)
  published : List (String × PriceTick)
  deriving Repr, DecidableEq

def redisSet : List (String × PriceTick × ℚ) → String → PriceTick → ℚ →
    List (String × PriceTick × ℚ)
  | [], key, v, expiry => [(key, v, expiry)]
  | (k, v0, e0) :: rest, key, v, expiry =>
    if k = key then (key, v, expiry) :: rest
    else (k, v0, e0) :: redisSet rest key v expiry

def redisGet (now : ℚ) : List (String × PriceTick × ℚ) → String → Option PriceTick
  | [], _ => none
  | (k, v, expiry) :: rest, key =>
    if k = key then (if now < expiry then some v else none)
    else redisGet now rest key

/-- `PriceRepo.Publish`: in one pipeline (atomic from the caller's point of
view), publish the marshalled tick on channel `prices.{symbol}` and set the
cache key `last_price:{symbol}` with a 60 second TTL. -/
def Publish (now : ℚ) (st : RedisState) (tick : PriceTick) : RedisState :=
  { store := redisSet st.store ("last_price:" ++ tick.symbol) tick (now + 60),
    published := st.published ++ [("prices." ++ tick.symbol, tick)] }

/-- `PriceRepo.GetLastPrice`: `GET last_price:{symbol}`; a missing or
expired key (`redis.Nil`) yields `none` — absent, not an error. -/
def GetLastPrice (now : ℚ) (st : RedisState) (symbol : String) : Option PriceTick :=
  redisGet now st.store ("last_price:" ++ symbol)

theorem redisGet_redisSet (now : ℚ) (l : List (String × PriceTick × ℚ))
    (key : String) (v : PriceTick) (expiry : ℚ) :
    redisGet now (redisSet l key v expiry) key =
      (if now < expiry then some v else none) := by
  induction l with
  | nil => simp [redisSet, redisGet]
  | cons head rest ih =>
    obtain ⟨k, v0, e0⟩ := head
    by_cases h : k = key
    · simp [redisSet, redisGet, h]
    · simp [redisSet, redisGet, h, ih]

/-! ## Claim C6: Publish sets a 60 s cache entry and broadcasts the same
payload; GetLastPrice is the last publish while fresh, absent afterwards -/

/-- Claim C6: after `Publish` runs at instant `now`, (a) `GetLastPrice` for
that symbol at any instant `t` returns the published tick when `t` is within
60 seconds of the publish and absent (`none`, not an error) once the entry
has expired — regardless of what was stored before, i.e. the most recent
publish wins — and (b) the same tick payload has been appended to the
symbol-scoped channel `prices.{symbol}` as part of the same atomic unit. -/
theorem publish_getLastPrice (now t : ℚ) (st : RedisState) (tick : PriceTick) :
    GetLastPrice t (Publish now st tick) tick.symbol =
      (if t < now + 60 then some tick else none) ∧
    (Publish now st tick).published =
      st.published ++ [("prices." ++ tick.symbol, tick)] := by
  constructor
  · unfold GetLastPrice Publish
    exact redisGet_redisSet t st.store ("last_price:" ++ tick.symbol) tick (now + 60)
  · rfl

/-! ## Fan-out hub (gateway Hub)

The hub actor loop (`Hub.Run`) owns three pieces of mutable state: the
client set `clients : map[*Client]bool`, the per-symbol subscriber sets
`subs : map[string]map[*Client]bool`, and the per-symbol upstream-bridge
cancellation handles `redisCancels : map[string]context.CancelFunc`.  Go
maps with `bool`/presence values are embedded as duplicate-free lists; a
cancellation handle is represented by the presence of its symbol in
`redisCancels`.  `pumpsStarted` is a ghost counter incremented exactly when
the loop executes `go h.pumpRedis(subCtx, sub.symbol)`. -/

abbrev ClientId := Nat

def natSetInsert (l : List ClientId) (c : ClientId) : List ClientId :=
  if c ∈ l then l else l ++ [c]

def natSetErase : List ClientId → ClientId → List ClientId
  | [], _ => []
  | x :: rest, c => if x = c then natSetErase rest c else x :: natSetErase rest c

def strSetInsert (l : List String) (s : String) : List String :=
  if s ∈ l then l else l ++ [s]

def strSetErase : List String → String → List String
  | [], _ => []
  | x :: rest, s => if x = s then strSetErase rest s else x :: strSetErase rest s

def subsGet : List (String × List ClientId) → String → Option (List ClientId)
  | [], _ => none
  | (k, v) :: rest, sym => if k = sym then some v else subsGet rest sym

def subsSet : List (String × List ClientId) → String → List ClientId →
    List (String × List ClientId)
  | [], sym, v => [(sym, v)]
  | (k, v0) :: rest, sym, v =>
    if k = sym then (sym, v) :: rest else (k, v0) :: subsSet rest sym v

def subsErase : List (String × List ClientId) → String → List (String × List ClientId)
  | [], _ => []
  | (k, v) :: rest, sym =>
    if k = sym then subsErase rest sym else (k, v) :: subsErase rest sym

structure HubState where
  clients      : List ClientId
  subs         : List (String × List ClientId)
  redisCancels : List String
  pumpsStarted : Nat
  deriving Repr, DecidableEq

inductive HubCmd where
  | register (c : ClientId)
  | unregister (c : ClientId)
  | subscribe (c : ClientId) (sym : String)
  | unsubscribe (c : ClientId) (sym : String)
  deriving Repr, DecidableEq

/-- The `unregister` sweep of `Hub.Run`: for every symbol whose subscriber
set contains the client, remove the client; if the set becomes empty, cancel
and discard the symbol's bridge handle and drop the subs entry. -/
def sweepClient (c : ClientId) :
    List (String × List ClientId) → List String →
    List (String × List ClientId) × List String
  | [], cancels => ([], cancels)
  | (sym, clients) :: rest, cancels =>
    if c ∈ clients then
      if natSetErase clients c = [] then sweepClient c rest (strSetErase cancels sym)
      else ((sym, natSetErase clients c) :: (sweepClient c rest cancels).1,
            (sweepClient c rest cancels).2)
    else ((sym, clients) :: (sweepClient c rest cancels).1,
          (sweepClient c rest cancels).2)

/-- One iteration of the `Hub.Run` select loop, for each of the four command
channels.  On `subscribe` for a brand-new symbol the loop creates the empty
subscriber set, retains a fresh cancellation handle, and launches one
`pumpRedis` bridging task before adding the client; on `unsubscribe` the
teardown happens exactly when the subscriber set becomes empty. -/
def hubStep (st : HubState) : HubCmd → HubState
  | .register c => { st with clients := natSetInsert st.clients c }
  | .unregister c =>
    if c ∈ st.clients then
      { st with clients := natSetErase st.clients c,
                subs := (sweepClient c st.subs st.redisCancels).1,
                redisCancels := (sweepClient c st.subs st.redisCancels).2 }
    else st
  | .subscribe c sym =>
    match subsGet st.subs sym with
    | some clients => { st with subs := subsSet st.subs sym (natSetInsert clients c) }
    | none =>
      { st with subs := subsSet st.subs sym (natSetInsert [] c),
                redisCancels := strSetInsert st.redisCancels sym,
                pumpsStarted := st.pumpsStarted + 1 }
  | .unsubscribe c sym =>
    match subsGet st.subs sym with
    | none => st
    | some clients =>
      if natSetErase clients c = [] then
        { st with subs := subsErase st.subs sym,
                  redisCancels := strSetErase st.redisCancels sym }
      else { st with subs := subsSet st.subs sym (natSetErase clients c) }

def hubInit : HubState := ⟨[], [], [], 0⟩

/-- The hub state after processing a command sequence strictly in arrival
order, starting from the freshly constructed hub. -/
def hubRun (cmds : List HubCmd) : HubState := cmds.foldl hubStep hubInit

/-! ### Association-list and set lemmas -/

theorem subsGet_eq_none (l : List (String × List ClientId)) (sym : String)
    (h : sym ∉ l.map Prod.fst) : subsGet l sym = none := by
  induction l with
  | nil => rfl
  | cons head rest ih =>
    obtain ⟨k, v⟩ := head
    simp only [List.map_cons, List.mem_cons] at h
    push_neg at h
    have hk : ¬ k = sym := fun hkk => h.1 hkk.symm
    simp [subsGet, hk, ih h.2]

theorem subsGet_isSome_iff (l : List (String × List ClientId)) (sym : String) :
    (subsGet l sym).isSome ↔ sym ∈ l.map Prod.fst := by
  induction l with
  | nil => simp [subsGet]
  | cons head rest ih =>
    obtain ⟨k, v⟩ := head
    by_cases h : k = sym
    · simp [subsGet, h]
    · have hks : ¬ sym = k := fun hs => h hs.symm
      simp [subsGet, h, ih, hks]

theorem subsGet_mem (l : List (String × List ClientId)) (sym : String)
    (v : List ClientId) (h : subsGet l sym = some v) : (sym, v) ∈ l := by
  induction l with
  | nil => simp [subsGet] at h
  | cons head rest ih =>
    obtain ⟨k, v0⟩ := head
    by_cases hk : k = sym
    · simp only [subsGet, if_pos hk, Option.some.injEq] at h
      simp [hk, h]
    · simp only [subsGet, if_neg hk] at h
      exact List.mem_cons_of_mem _ (ih h)

theorem subsGet_subsSet_self (l : List (String × List ClientId)) (sym : String)
    (v : List ClientId) : subsGet (subsSet l sym v) sym = some v := by
  induction l with
  | nil => simp [subsSet, subsGet]
  | cons head rest ih =>
    obtain ⟨k, v0⟩ := head
    by_cases h : k = sym
    · simp [subsSet, subsGet, h]
    · simp [subsSet, subsGet, h, ih]

theorem subsGet_subsSet_ne (l : List (String × List ClientId)) (sym s : String)
    (v : List ClientId) (h : s ≠ sym) :
    subsGet (subsSet l sym v) s = subsGet l s := by
  have hs : ¬ sym = s := fun he => h he.symm
  induction l with
  | nil => simp [subsSet, subsGet, hs]
  | cons head rest ih =>
    obtain ⟨k, v0⟩ := head
    by_cases hk : k = sym
    · simp [subsSet, subsGet, hk, hs]
    · simp [subsSet, subsGet, hk, ih]

theorem subsSet_self (l : List (String × List ClientId)) (sym : String)
    (v : List ClientId) (h : subsGet l sym = some v) : subsSet l sym v = l := by
  induction l with
  | nil => simp [subsGet] at h
  | cons head rest ih =>
    obtain ⟨k, v0⟩ := head
    by_cases hk : k = sym
    · simp only [subsGet, if_pos hk, Option.some.injEq] at h
      simp [subsSet, hk, h]
    · simp only [subsGet, if_neg hk] at h
      simp [subsSet, hk, ih h]

theorem subsSet_keys_present (l : List (String × List ClientId)) (sym : String)
    (v : List ClientId) (h : sym ∈ l.map Prod.fst) :
    (subsSet l sym v).map Prod.fst = l.map Prod.fst := by
  induction l with
  | nil => simp at h
  | cons head rest ih =>
    obtain ⟨k, v0⟩ := head
    by_cases hk : k = sym
    · simp [subsSet, hk]
    · simp only [List.map_cons, List.mem_cons] at h
      rcases h with h | h
      · exact absurd h.symm hk
      · simp [subsSet, hk, ih h]

theorem subsSet_keys_absent (l : List (String × List ClientId)) (sym : String)
    (v : List ClientId) (h : sym ∉ l.map Prod.fst) :
    (subsSet l sym v).map Prod.fst = l.map Prod.fst ++ [sym] := by
  induction l with
  | nil => simp [subsSet]
  | cons head rest ih =>
    obtain ⟨k, v0⟩ := head
    simp only [List.map_cons, List.mem_cons] at h
    push_neg at h
    have hk : ¬ k = sym := fun hkk => h.1 hkk.symm
    simp [subsSet, hk, ih h.2]

theorem subsSet_forall_mem (l : List (String × List ClientId)) (sym : String)
    (v : List ClientId) (p : (String × List ClientId)) (hp : p ∈ subsSet l sym v) :
    p.2 = v ∨ p ∈ l := by
  induction l with
  | nil =>
    simp only [subsSet, List.mem_singleton] at hp
    left; rw [hp]
  | cons head rest ih =>
    obtain ⟨k, v0⟩ := head
    by_cases hk : k = sym
    · simp only [subsSet, if_pos hk, List.mem_cons] at hp
      rcases hp with hp | hp
      · left; rw [hp]
      · right; exact List.mem_cons_of_mem _ hp
    · simp only [subsSet, if_neg hk, List.mem_cons] at hp
      rcases hp with hp | hp
      · right; rw [hp]; exact List.mem_cons_self _ _
      · rcases ih hp with h | h
        · left; exact h
        · right; exact List.mem_cons_of_mem _ h

theorem subsGet_subsErase_self (l : List (String × List ClientId)) (sym : String) :
    subsGet (subsErase l sym) sym = none := by
  induction l with
  | nil => rfl
  | cons head rest ih =>
    obtain ⟨k, v⟩ := head
    by_cases hk : k = sym
    · simp [subsErase, hk, ih]
    · simp [subsErase, subsGet, hk, ih]

theorem subsGet_subsErase_ne (l : List (String × List ClientId)) (sym s : String)
    (h : s ≠ sym) : subsGet (subsErase l sym) s = subsGet l s := by
  have hs : ¬ sym = s := fun he => h he.symm
  induction l with
  | nil => rfl
  | cons head rest ih =>
    obtain ⟨k, v⟩ := head
    by_cases hk : k = sym
    · simp [subsErase, subsGet, hk, ih, hs]
    · simp [subsErase, subsGet, hk, ih]

theorem subsErase_keys_sublist (l : List (String × List ClientId)) (sym : String) :
    ((subsErase l sym).map Prod.fst).Sublist (l.map Prod.fst) := by
  induction l with
  | nil => simp [subsErase]
  | cons head rest ih =>
    obtain ⟨k, v⟩ := head
    by_cases hk : k = sym
    · simp only [subsErase, if_pos hk, List.map_cons]
      exact ih.cons _
    · simp only [subsErase, if_neg hk, List.map_cons]
      exact ih.cons₂ _

theorem subsErase_subset (l : List (String × List ClientId)) (sym : String)
    (p : String × List ClientId) (hp : p ∈ subsErase l sym) : p ∈ l := by
  induction l with
  | nil => simp [subsErase] at hp
  | cons head rest ih =>
    obtain ⟨k, v⟩ := head
    by_cases hk : k = sym
    · simp only [subsErase, if_pos hk] at hp
      exact List.mem_cons_of_mem _ (ih hp)
    · simp only [subsErase, if_neg hk, List.mem_cons] at hp
      rcases hp with hp | hp
      · rw [hp]; exact List.mem_cons_self _ _
      · exact List.mem_cons_of_mem _ (ih hp)

theorem mem_strSetInsert (l : List String) (x s : String) :
    s ∈ strSetInsert l x ↔ s ∈ l ∨ s = x := by
  unfold strSetInsert
  by_cases h : x ∈ l
  · simp only [if_pos h]
    constructor
    · exact Or.inl
    · rintro (hs | hs)
      · exact hs
      · rw [hs]; exact h
  · simp [if_neg h]

theorem strSetInsert_nodup (l : List String) (x : String) (h : l.Nodup)
    (hx : x ∉ l) : (strSetInsert l x).Nodup := by
  unfold strSetInsert
  rw [if_neg hx]
  simp [List.nodup_append, h, hx]

theorem mem_strSetErase (l : List String) (x s : String) :
    s ∈ strSetErase l x ↔ s ∈ l ∧ s ≠ x := by
  induction l with
  | nil => simp [strSetErase]
  | cons head rest ih =>
    by_cases h : head = x
    · simp only [strSetErase, if_pos h, ih, List.mem_cons]
      constructor
      · rintro ⟨hs, hne⟩
        exact ⟨Or.inr hs, hne⟩
      · rintro ⟨hs | hs, hne⟩
        · exact absurd (hs.trans h) hne
        · exact ⟨hs, hne⟩
    · simp only [strSetErase, if_neg h, List.mem_cons, ih]
      constructor
      · rintro (hs | ⟨hs, hne⟩)
        · exact ⟨Or.inl hs, fun he => h (hs ▸ he : head = x)⟩
        · exact ⟨Or.inr hs, hne⟩
      · rintro ⟨hs | hs, hne⟩
        · exact Or.inl hs
        · exact Or.inr ⟨hs, hne⟩

theorem strSetErase_nodup (l : List String) (x : String) (h : l.Nodup) :
    (strSetErase l x).Nodup := by
  induction l with
  | nil => simp [strSetErase]
  | cons head rest ih =>
    obtain ⟨hh, ht⟩ := List.nodup_cons.mp h
    by_cases hx : head = x
    · simp only [strSetErase, if_pos hx]
      exact ih ht
    · simp only [strSetErase, if_neg hx, List.nodup_cons]
      exact ⟨fun hm => hh ((mem_strSetErase rest x head).mp hm).1, ih ht⟩

theorem natSetInsert_of_mem (l : List ClientId) (c : ClientId) (h : c ∈ l) :
    natSetInsert l c = l := by
  unfold natSetInsert
  rw [if_pos h]

theorem natSetErase_of_not_mem (l : List ClientId) (c : ClientId) (h : c ∉ l) :
    natSetErase l c = l := by
  induction l with
  | nil => rfl
  | cons head rest ih =>
    simp only [List.mem_cons] at h
    push_neg at h
    have hh : ¬ head = c := fun he => h.1 he.symm
    simp [natSetErase, hh, ih h.2]

/-! ### Lemmas about the unregister sweep -/

/-- The unregister sweep drops the entry for symbol `s` exactly when the
client was its last subscriber. -/
def sweepDrops (c : ClientId) (subs : List (String × List ClientId)) (s : String) : Prop :=
  ∃ cl, subsGet subs s = some cl ∧ c ∈ cl ∧ natSetErase cl c = []

theorem sweepClient_fst_get (c : ClientId) (subs : List (String × List ClientId))
    (cancels : List String) (hnd : (subs.map Prod.fst).Nodup) (s : String) :
    subsGet (sweepClient c subs cancels).1 s =
      match subsGet subs s with
      | none => none
      | some cl =>
        if c ∈ cl then
          (if natSetErase cl c = [] then none else some (natSetErase cl c))
        else some cl := by
  induction subs generalizing cancels with
  | nil => simp [sweepClient, subsGet]
  | cons head rest ih =>
    obtain ⟨sym, clients⟩ := head
    have hnd' : (sym ∉ rest.map Prod.fst) ∧ (rest.map Prod.fst).Nodup := by
      rw [List.map_cons, List.nodup_cons] at hnd
      exact hnd
    by_cases hss : sym = s
    · subst hss
      by_cases hc : c ∈ clients
      · by_cases hz : natSetErase clients c = []
        · simp only [sweepClient, if_pos hc, if_pos hz, subsGet, if_pos rfl]
          rw [ih _ hnd'.2, subsGet_eq_none rest sym hnd'.1]
          simp [hc, hz]
        · simp [sweepClient, hc, hz, subsGet]
      · simp [sweepClient, hc, subsGet]
    · by_cases hc : c ∈ clients
      · by_cases hz : natSetErase clients c = []
        · simp only [sweepClient, if_pos hc, if_pos hz, subsGet, if_neg hss]
          exact ih _ hnd'.2
        · simp only [sweepClient, if_pos hc, if_neg hz, subsGet, if_neg hss]
          exact ih _ hnd'.2
      · simp only [sweepClient, if_neg hc, subsGet, if_neg hss]
        exact ih _ hnd'.2

theorem sweepClient_snd_mem (c : ClientId) (subs : List (String × List ClientId))
    (cancels : List String) (hnd : (subs.map Prod.fst).Nodup) (s : String) :
    s ∈ (sweepClient c subs cancels).2 ↔ s ∈ cancels ∧ ¬ sweepDrops c subs s := by
  induction subs generalizing cancels with
  | nil => simp [sweepClient, sweepDrops, subsGet]
  | cons head rest ih =>
    obtain ⟨sym, clients⟩ := head
    have hnd' : (sym ∉ rest.map Prod.fst) ∧ (rest.map Prod.fst).Nodup := by
      rw [List.map_cons, List.nodup_cons] at hnd
      exact hnd
    have hdropsRestSym : ¬ sweepDrops c rest sym := by
      rw [sweepDrops, subsGet_eq_none rest sym hnd'.1]
      simp
    by_cases hc : c ∈ clients
    · by_cases hz : natSetErase clients c = []
      · simp only [sweepClient, if_pos hc, if_pos hz]
        rw [ih _ hnd'.2, mem_strSetErase]
        by_cases hss : sym = s
        · subst hss
          have : sweepDrops c ((sym, clients) :: rest) sym :=
            ⟨clients, by simp [subsGet], hc, hz⟩
          simp [this]
        · have : sweepDrops c ((sym, clients) :: rest) s ↔ sweepDrops c rest s := by
            unfold sweepDrops
            rw [show subsGet ((sym, clients) :: rest) s = subsGet rest s from by
              simp [subsGet, hss]]
          rw [this]
          constructor
          · rintro ⟨⟨hcan, _⟩, hnd2⟩
            exact ⟨hcan, hnd2⟩
          · rintro ⟨hcan, hnd2⟩
            exact ⟨⟨hcan, fun he => hss he.symm⟩, hnd2⟩
      · simp only [sweepClient, if_pos hc, if_neg hz]
        rw [ih _ hnd'.2]
        by_cases hss : sym = s
        · subst hss
          have : ¬ sweepDrops c ((sym, clients) :: rest) sym := by
            rintro ⟨cl, hcl, _, hcz⟩
            have hclq : clients = cl := by simpa [subsGet] using hcl
            rw [← hclq] at hcz
            exact hz hcz
          simp [this, hdropsRestSym]
        · have : sweepDrops c ((sym, clients) :: rest) s ↔ sweepDrops c rest s := by
            unfold sweepDrops
            rw [show subsGet ((sym, clients) :: rest) s = subsGet rest s from by
              simp [subsGet, hss]]
          rw [this]
    · simp only [sweepClient, if_neg hc]
      rw [ih _ hnd'.2]
      by_cases hss : sym = s
      · subst hss
        have : ¬ sweepDrops c ((sym, clients) :: rest) sym := by
          rintro ⟨cl, hcl, hcc, _⟩
          have hclq : clients = cl := by simpa [subsGet] using hcl
          rw [← hclq] at hcc
          exact hc hcc
        simp [this, hdropsRestSym]
      · have : sweepDrops c ((sym, clients) :: rest) s ↔ sweepDrops c rest s := by
          unfold sweepDrops
          rw [show subsGet ((sym, clients) :: rest) s = subsGet rest s from by
            simp [subsGet, hss]]
        rw [this]

theorem sweepClient_snd_nodup (c : ClientId) (subs : List (String × List ClientId)) :
    ∀ cancels : List String, cancels.Nodup → (sweepClient c subs cancels).2.Nodup := by
  induction subs with
  | nil =>
    intro cancels h
    simpa [sweepClient]
  | cons head rest ih =>
    intro cancels h
    obtain ⟨sym, clients⟩ := head
    by_cases hc : c ∈ clients
    · by_cases hz : natSetErase clients c = []
      · simp only [sweepClient, if_pos hc, if_pos hz]
        exact ih _ (strSetErase_nodup cancels sym h)
      · simp only [sweepClient, if_pos hc, if_neg hz]
        exact ih _ h
    · simp only [sweepClient, if_neg hc]
      exact ih _ h

theorem sweepClient_fst_keys_sublist (c : ClientId)
    (subs : List (String × List ClientId)) (cancels : List String) :
    ((sweepClient c subs cancels).1.map Prod.fst).Sublist (subs.map Prod.fst) := by
  induction subs generalizing cancels with
  | nil => simp [sweepClient]
  | cons head rest ih =>
    obtain ⟨sym, clients⟩ := head
    by_cases hc : c ∈ clients
    · by_cases hz : natSetErase clients c = []
      · simp only [sweepClient, if_pos hc, if_pos hz, List.map_cons]
        exact (ih _).cons _
      · simp only [sweepClient, if_pos hc, if_neg hz, List.map_cons]
        exact (ih _).cons₂ _
    · simp only [sweepClient, if_neg hc, List.map_cons]
      exact (ih _).cons₂ _

theorem sweepClient_fst_forall (c : ClientId) (subs : List (String × List ClientId))
    (cancels : List String) (h : ∀ p ∈ subs, p.2 ≠ []) :
    ∀ p ∈ (sweepClient c subs cancels).1, p.2 ≠ [] := by
  induction subs generalizing cancels with
  | nil =>
    intro p hp
    simp [sweepClient] at hp
  | cons head rest ih =>
    intro p hp
    obtain ⟨sym, clients⟩ := head
    have hrest : ∀ p ∈ rest, p.2 ≠ [] := fun q hq => h q (List.mem_cons_of_mem _ hq)
    by_cases hc : c ∈ clients
    · by_cases hz : natSetErase clients c = []
      · simp only [sweepClient, if_pos hc, if_pos hz] at hp
        exact ih _ hrest _ hp
      · simp only [sweepClient, if_pos hc, if_neg hz, List.mem_cons] at hp
        rcases hp with hp | hp
        · rw [hp]; exact hz
        · exact ih _ hrest _ hp
    · simp only [sweepClient, if_neg hc, List.mem_cons] at hp
      rcases hp with hp | hp
      · rw [hp]; exact h _ (List.mem_cons_self _ _)
      · exact ih _ hrest _ hp

theorem natSetInsert_ne_nil (l : List ClientId) (c : ClientId) :
    natSetInsert l c ≠ [] := by
  unfold natSetInsert
  split
  · rename_i h
    exact List.ne_nil_of_mem h
  · simp

/-! ### The hub bridge invariant -/

/-- The representation invariant of the hub actor state: subscriber-set keys
are unique (they come from a Go map), every retained subscriber set is
non-empty, the retained cancellation handles are one per symbol, and a
symbol holds a handle exactly when it has a subs entry. -/
abbrev HubInv (st : HubState) : Prop :=
  (st.subs.map Prod.fst).Nodup ∧
  (∀ p ∈ st.subs, p.2 ≠ []) ∧
  st.redisCancels.Nodup ∧
  (∀ sym, sym ∈ st.redisCancels ↔ (subsGet st.subs sym).isSome)

theorem hubStep_inv (st : HubState) (cmd : HubCmd) (h : HubInv st) :
    HubInv (hubStep st cmd) := by
  obtain ⟨hkeys, hne, hcnd, hiff⟩ := h
  cases cmd with
  | register c => exact ⟨hkeys, hne, hcnd, hiff⟩
  | unregister c =>
    by_cases hc : c ∈ st.clients
    · simp only [hubStep, if_pos hc]
      refine ⟨?_, ?_, ?_, ?_⟩
      · exact (sweepClient_fst_keys_sublist c st.subs st.redisCancels).nodup hkeys
      · exact sweepClient_fst_forall c st.subs st.redisCancels hne
      · exact sweepClient_snd_nodup c st.subs st.redisCancels hcnd
      · intro sym
        rw [sweepClient_snd_mem c st.subs st.redisCancels hkeys sym,
            sweepClient_fst_get c st.subs st.redisCancels hkeys sym]
        cases hg : subsGet st.subs sym with
        | none => simp [hiff sym, hg]
        | some cl =>
          by_cases hcc : c ∈ cl
          · by_cases hz : natSetErase cl c = []
            · simp [sweepDrops, hg, hcc, hz]
            · simp [sweepDrops, hg, hcc, hz, hiff sym]
          · simp [sweepDrops, hg, hcc, hiff sym]
    · simp only [hubStep, if_neg hc]
      exact ⟨hkeys, hne, hcnd, hiff⟩
  | subscribe c sym =>
    cases hg : subsGet st.subs sym with
    | some clients =>
      simp only [hubStep, hg]
      refine ⟨?_, ?_, hcnd, ?_⟩
      · rw [subsSet_keys_present _ _ _ ((subsGet_isSome_iff _ _).mp (by simp [hg]))]
        exact hkeys
      · intro p hp
        rcases subsSet_forall_mem _ _ _ _ hp with hv | hv
        · rw [hv]
          exact natSetInsert_ne_nil _ _
        · exact hne _ hv
      · intro s
        by_cases hs : s = sym
        · subst hs
          rw [subsGet_subsSet_self]
          simp [hiff s, hg]
        · rw [subsGet_subsSet_ne _ _ _ _ hs]
          exact hiff s
    | none =>
      simp only [hubStep, hg]
      have hknot : sym ∉ st.subs.map Prod.fst := by
        rw [← subsGet_isSome_iff]
        simp [hg]
      have hcnot : sym ∉ st.redisCancels := by
        rw [hiff]
        simp [hg]
      refine ⟨?_, ?_, ?_, ?_⟩
      · rw [subsSet_keys_absent _ _ _ hknot]
        simp [List.nodup_append, hkeys, hknot]
      · intro p hp
        rcases subsSet_forall_mem _ _ _ _ hp with hv | hv
        · rw [hv]
          exact natSetInsert_ne_nil _ _
        · exact hne _ hv
      · exact strSetInsert_nodup _ _ hcnd hcnot
      · intro s
        by_cases hs : s = sym
        · subst hs
          rw [mem_strSetInsert, subsGet_subsSet_self]
          simp
        · rw [mem_strSetInsert, subsGet_subsSet_ne _ _ _ _ hs, hiff s]
          simp [hs]
  | unsubscribe c sym =>
    cases hg : subsGet st.subs sym with
    | none =>
      simp only [hubStep, hg]
      exact ⟨hkeys, hne, hcnd, hiff⟩
    | some clients =>
      by_cases hz : natSetErase clients c = []
      · simp only [hubStep, hg, if_pos hz]
        refine ⟨?_, ?_, ?_, ?_⟩
        · exact (subsErase_keys_sublist _ _).nodup hkeys
        · intro p hp
          exact hne _ (subsErase_subset _ _ _ hp)
        · exact strSetErase_nodup _ _ hcnd
        · intro s
          by_cases hs : s = sym
          · subst hs
            rw [mem_strSetErase, subsGet_subsErase_self]
            simp
          · rw [mem_strSetErase, subsGet_subsErase_ne _ _ _ hs, hiff s]
            simp [hs]
      · simp only [hubStep, hg, if_neg hz]
        refine ⟨?_, ?_, hcnd, ?_⟩
        · rw [subsSet_keys_present _ _ _ ((subsGet_isSome_iff _ _).mp (by simp [hg]))]
          exact hkeys
        · intro p hp
          rcases subsSet_forall_mem _ _ _ _ hp with hv | hv
          · rw [hv]
            exact hz
          · exact hne _ hv
        · intro s
          by_cases hs : s = sym
          · subst hs
            rw [subsGet_subsSet_self]
            simp [hiff s, hg]
          · rw [subsGet_subsSet_ne _ _ _ _ hs]
            exact hiff s

theorem hubInit_inv : HubInv hubInit := by
  refine ⟨?_, ?_, ?_, ?_⟩ <;> simp [hubInit, subsGet]

theorem hubRun_inv (cmds : List HubCmd) : HubInv (hubRun cmds) := by
  suffices h : ∀ st, HubInv st → HubInv (cmds.foldl hubStep st) from h hubInit hubInit_inv
  induction cmds with
  | nil => exact fun st h => h
  | cons cmd rest ih => exact fun st h => ih _ (hubStep_inv st cmd h)

/-! ## Claim C7: a bridge handle is retained iff the subscriber set is
non-empty -/

/-- Claim C7: in every hub state reachable by processing a command sequence
in order from the initial hub, a symbol has a retained upstream-bridge
cancellation handle if and only if its subscriber set exists and is
non-empty; moreover the handle registry holds at most one handle per symbol
(duplicate-free), so concurrent subscribers share exactly one bridging
task and the handle disappears once the last subscriber leaves (by
unsubscribe or unregister). -/
theorem hub_bridge_iff_nonempty_subscribers (cmds : List HubCmd) (sym : String) :
    ((sym ∈ (hubRun cmds).redisCancels) ↔
      ∃ l, subsGet (hubRun cmds).subs sym = some l ∧ l ≠ []) ∧
    (hubRun cmds).redisCancels.Nodup := by
  obtain ⟨hkeys, hne, hcnd, hiff⟩ := hubRun_inv cmds
  refine ⟨?_, hcnd⟩
  rw [hiff sym]
  cases hg : subsGet (hubRun cmds).subs sym with
  | none => simp
  | some l =>
    simp only [Option.isSome_some, true_iff]
    exact ⟨l, rfl, hne _ (subsGet_mem _ _ _ hg)⟩

/-! ## Claim C10: subscribing an already-subscribed client is a no-op -/

/-- Claim C10: processing `subscribe(c, sym)` when `c` is already in
`sym`'s subscriber set leaves the hub state — client set, subscriber sets,
bridge handles, and the count of bridging tasks ever started — exactly
unchanged, for every reachable hub state. -/
theorem hub_subscribe_idempotent (cmds : List HubCmd) (c : ClientId) (sym : String)
    (l : List ClientId) (hget : subsGet (hubRun cmds).subs sym = some l)
    (hc : c ∈ l) :
    hubStep (hubRun cmds) (.subscribe c sym) = hubRun cmds := by
  simp only [hubStep, hget]
  rw [natSetInsert_of_mem l c hc, subsSet_self _ _ _ hget]

/-- Witness for C10: re-subscribing client 1 to a symbol it already
subscribes to leaves the concrete hub state unchanged. -/
theorem hub_subscribe_idempotent_witness :
    hubStep (hubRun [HubCmd.register 1, HubCmd.subscribe 1 "AAPL"])
        (.subscribe 1 "AAPL") =
      hubRun [HubCmd.register 1, HubCmd.subscribe 1 "AAPL"] :=
  hub_subscribe_idempotent [HubCmd.register 1, HubCmd.subscribe 1 "AAPL"] 1 "AAPL"
    [1] (by decide) (by decide)

/-! ## Fan-out delivery (Hub.fanOut)

Each connected client owns one buffered outbound channel `send` (created
with capacity 256 in the websocket handler); a channel is modelled by its
queued payloads together with its capacity.  `fanOut` looks up the
subscriber set for the symbol and performs a non-blocking send
(`select ... default`) to each subscribed client: the payload is enqueued
when the buffer has space and silently dropped for that client otherwise;
clients outside the subscriber set are never touched. -/

def bufsGet : List (ClientId × List String × Nat) → ClientId → Option (List String × Nat)
  | [], _ => none
  | (c, q, cap) :: rest, cid => if c = cid then some (q, cap) else bufsGet rest cid

/-- A non-blocking send on a buffered channel: enqueue when below capacity,
drop otherwise (the `select { case client.send <- data: default: }`). -/
def chanSend (q : List String) (cap : Nat) (data : String) : List String :=
  if q.length < cap then q ++ [data] else q

def fanOut (subs : List (String × List ClientId))
    (bufs : List (ClientId × List String × Nat)) (symbol data : String) :
    List (ClientId × List String × Nat) :=
  match subsGet subs symbol with
  | none => bufs
  | some clients =>
    bufs.map fun b => if b.1 ∈ clients then (b.1, chanSend b.2.1 b.2.2 data, b.2.2) else b

/-! ## Claim C8: a tick reaches exactly the subscribed clients with buffer
space -/

/-- Claim C8: after `fanOut` for symbol X, a client's outbound buffer has
the tick appended exactly when the client is in X's subscriber set and its
buffer had space; a subscribed client with a full buffer keeps its old
buffer (the tick is dropped for it), and a client not subscribed to X is
untouched — each client's outcome is independent of every other client's
buffer, so a full buffer never blocks the rest of the broadcast. -/
theorem fanOut_delivery (subs : List (String × List ClientId))
    (bufs : List (ClientId × List String × Nat)) (symbol data : String)
    (c : ClientId) (q : List String) (cap : Nat)
    (h : bufsGet bufs c = some (q, cap)) :
    bufsGet (fanOut subs bufs symbol data) c =
      some (if c ∈ (subsGet subs symbol).getD [] ∧ q.length < cap
            then (q ++ [data], cap) else (q, cap)) := by
  unfold fanOut
  cases hs : subsGet subs symbol with
  | none => simpa using h
  | some clients =>
    simp only [Option.getD_some]
    induction bufs with
    | nil => simp [bufsGet] at h
    | cons head rest ih =>
      obtain ⟨c0, q0, cap0⟩ := head
      rw [List.map_cons]
      dsimp only
      by_cases hc0 : c0 = c
      · subst hc0
        have h2 : (q0, cap0) = (q, cap) := by simpa [bufsGet] using h
        injection h2 with hq hcap
        subst hq
        subst hcap
        by_cases hm : c0 ∈ clients
        · rw [if_pos hm]
          by_cases hl : q0.length < cap0
          · simp [bufsGet, chanSend, hm, hl]
          · simp [bufsGet, chanSend, hm, hl]
        · rw [if_neg hm]
          simp [bufsGet, hm]
      · have h2 : bufsGet rest c = some (q, cap) := by
          simpa [bufsGet, hc0] using h
        by_cases hm : c0 ∈ clients
        · rw [if_pos hm]
          simpa [bufsGet, hc0] using ih h2
        · rw [if_neg hm]
          simpa [bufsGet, hc0] using ih h2

/-- Witness for C8: with clients 1 (empty buffer, capacity 2) and 2 (full
buffer, capacity 1) both subscribed to AAPL, client 2's buffer is unchanged
by the broadcast. -/
theorem fanOut_delivery_witness :
    bufsGet (fanOut [("AAPL", [1, 2])] [(1, [], 2), (2, ["x"], 1)] "AAPL" "tick") 2 =
      some (if 2 ∈ (subsGet [("AAPL", [1, 2])] "AAPL").getD [] ∧ ["x"].length < 1
            then (["x"] ++ ["tick"], 1) else (["x"], 1)) :=
  fanOut_delivery [("AAPL", [1, 2])] [(1, [], 2), (2, ["x"], 1)] "AAPL" "tick"
    2 ["x"] 1 (by decide)

/-! ## Ingestion reconnect backoff (ingestion AlpacaClient)

The observable outcome of one `connect` attempt, as seen by the reconnect
loop in `Run`:
* `dialFail` — dial, handshake, auth/subscribe I/O, or read-loop error:
  `connect` returns a non-nil error;
* `authRejected` — the auth response carries no success marker: `connect`
  logs a warning and returns nil;
* `sessionDisconnect` — the attempt reaches the authenticated-and-subscribed
  read loop (a fully successful session) and the connection later drops:
  `connect` returns the read error (non-nil). -/

inductive SessionOutcome where
  | dialFail
  | authRejected
  | sessionDisconnect
  deriving Repr, DecidableEq

def connectReturnsError : SessionOutcome → Bool
  | .dialFail => true
  | .authRejected => false
  | .sessionDisconnect => true

/-- The sleeps (in whole seconds) performed by the reconnect loop of
`AlpacaClient.Run` over a sequence of connect outcomes.  `backoff` starts at
1 s.  When `connect` returns an error the loop sleeps `backoff` seconds and
then doubles it, capping at 60 (`backoff *= 2; if backoff > maxBackoff`).
When `connect` returns nil the loop sets `backoff` back to 1 s and retries
immediately without sleeping. -/
def runWaits : List SessionOutcome → Nat → List Nat
  | [], _ => []
  | o :: rest, backoff =>
    if connectReturnsError o then backoff :: runWaits rest (min (backoff * 2) 60)
    else runWaits rest 1

def alpacaRunWaits (outcomes : List SessionOutcome) : List Nat := runWaits outcomes 1

/-! ## Claim C9: backoff sequence and reset behaviour -/

/-- Claim C9 (code evaluation): the delays after repeated immediate failures
are 1, 2, 4, 8, 16, 32, 60, 60 seconds as claimed, but the reset half of
the claim fails on the code: after two failures followed by one fully
successful session, the next disconnect waits 4 s and then 8 s — the
backoff is not reset to 1 s, because `connect` returns the read-loop error
(non-nil) when a successful session ends, and `Run` resets the backoff only
on a nil return.  The only nil-returning path short of cancellation is a
rejected authentication, after which the backoff is in fact reset. -/
theorem alpacaRunWaits_backoff_not_reset_after_success :
    alpacaRunWaits (List.replicate 8 .dialFail) = [1, 2, 4, 8, 16, 32, 60, 60] ∧
    alpacaRunWaits [.dialFail, .dialFail, .sessionDisconnect, .dialFail] =
      [1, 2, 4, 8] ∧
    alpacaRunWaits [.dialFail, .dialFail, .authRejected, .dialFail] = [1, 2, 1] :=
  ⟨rfl, rfl, rfl⟩

end PaperTrader
